import Mathlib

/-!
Shallow embedding of the `int_stack` kernel module (src/int_stack.c).

The module keeps a single `struct stack { int *data; int top; int size;
struct mutex lock; }`.  `stack_read` pops, `stack_write` pushes,
`stack_ioctl` resizes, and the USB probe/disconnect callbacks create and
destroy the character-device endpoint without touching the stack.

Machine `int` values are modelled as `Int` (no arithmetic in the source
can overflow on reachable states: `top` only moves between `0` and
`size`, and `size`/pushed values are only stored and compared).  The
`data` pointer is modelled as `Option (List Int)`: `none` is the initial
NULL pointer, `some d` a heap buffer whose length is the allocation
size.  `copy_from_user`/`copy_to_user` outcomes are explicit parameters
(`none`/`false` meaning the copy faulted), and a kmalloc outcome is the
`alloc_ok` flag, with the fresh buffer's uninitialized contents given by
a `garbage` function.
-/

namespace IntStack

/-- Linux error number used by `-EINVAL`. -/
def EINVAL : Int := 22
/-- Linux error number used by `-EFAULT`. -/
def EFAULT : Int := 14
/-- Linux error number used by `-ERANGE`. -/
def ERANGE : Int := 34
/-- Linux error number used by `-ENOMEM`. -/
def ENOMEM : Int := 12
/-- Linux error number used by `-ENOTTY`. -/
def ENOTTY : Int := 25

/-- The ioctl command `_IOW('s', 1, int)`: direction `_IOC_WRITE = 1`
shifted by 30, size `sizeof(int) = 4` shifted by 16, type `'s' = 115`
shifted by 8, number `1`. -/
def IOCTL_SET_SIZE : Nat := (1 <<< 30) + (4 <<< 16) + (115 <<< 8) + 1

/-- `struct stack` without the mutex: `data` is the backing buffer
(`none` = NULL), `top` the number of live elements, `size` the
allocated capacity.  `stack_init` sets `data = NULL`, `size = 0`,
`top = 0`. -/
structure Stack where
  data : Option (List Int)
  top : Int
  size : Int
deriving DecidableEq, Repr

/-- The state installed by `stack_init`. -/
def stack_init : Stack := { data := none, top := 0, size := 0 }

/-- The backing buffer as a list (NULL reads as the empty buffer; the
well-formedness invariant rules such reads out). -/
def Stack.buf (s : Stack) : List Int := s.data.getD []

/-- Well-formedness of a stack state: `0 ≤ top ≤ size`, and the buffer
holds exactly `size` ints (for the NULL buffer this forces `size = 0`,
matching the initial state). -/
def Stack.WF (s : Stack) : Prop :=
  0 ≤ s.top ∧ s.top ≤ s.size ∧ (s.buf.length : Int) = s.size

instance (s : Stack) : Decidable s.WF := by
  unfold Stack.WF
  exact inferInstance

/-- Result of `stack_read`: the `ssize_t` return value, the 4-byte
value transferred to the user buffer when the copy succeeded, and the
stack state afterwards. -/
structure ReadResult where
  ret : Int
  transferred : Option Int
  st : Stack
deriving DecidableEq, Repr

/-- `stack_read` (pop).  `count` is the requested byte count and
`copy_ok` whether `copy_to_user` succeeds.  Mirrors the source: reject
`count != sizeof(int)`; under the lock, an empty stack returns `0`
without mutation, otherwise `value = data[--top]`; the lock is dropped
and the value copied out, `-EFAULT` on a failed copy. -/
def stack_read (s : Stack) (count : Nat) (copy_ok : Bool) : ReadResult :=
  if count ≠ 4 then
    { ret := -EINVAL, transferred := none, st := s }
  else if s.top = 0 then
    { ret := 0, transferred := none, st := s }
  else
    let value := s.buf.getD (s.top - 1).toNat 0
    let s' : Stack := { s with top := s.top - 1 }
    if copy_ok then
      { ret := 4, transferred := some value, st := s' }
    else
      { ret := -EFAULT, transferred := none, st := s' }

/-- `stack_write` (push).  `count` is the byte count and `user` the
result of `copy_from_user` (`none` = fault).  Mirrors the source:
reject `count != sizeof(int)`, then the copy, then under the lock fail
with `-ERANGE` when `top >= size`, otherwise `data[top++] = value`. -/
def stack_write (s : Stack) (count : Nat) (user : Option Int) : Int × Stack :=
  if count ≠ 4 then
    (-EINVAL, s)
  else
    match user with
    | none => (-EFAULT, s)
    | some value =>
      if s.top ≥ s.size then
        (-ERANGE, s)
      else
        (4, { s with data := some (s.buf.set s.top.toNat value),
                     top := s.top + 1 })

/-- `stack_ioctl` (resize).  `arg` is the result of `copy_from_user`
on the ioctl argument, `alloc_ok` whether `kmalloc` succeeds, and
`garbage i` the uninitialized contents of slot `i` of the fresh
buffer.  Mirrors the source: reject unknown commands with `-ENOTTY`,
a failed copy with `-EFAULT`, `new_size <= 0` with `-EINVAL`; under
the lock a failed allocation returns `-ENOMEM`; otherwise the old
buffer's first `min(top, new_size)` ints are copied into the fresh
buffer (nothing is copied from a NULL buffer), and `data`, `size` are
replaced, `top` clamped to `new_size` when it exceeded it. -/
def stack_ioctl (s : Stack) (cmd : Nat) (arg : Option Int) (alloc_ok : Bool)
    (garbage : Nat → Int) : Int × Stack :=
  if cmd ≠ IOCTL_SET_SIZE then
    (-ENOTTY, s)
  else
    match arg with
    | none => (-EFAULT, s)
    | some new_size =>
      if new_size ≤ 0 then
        (-EINVAL, s)
      else if ¬ alloc_ok then
        (-ENOMEM, s)
      else
        let fresh := (List.range new_size.toNat).map garbage
        let new_data :=
          match s.data with
          | some d =>
            let elements_to_copy := if s.top < new_size then s.top else new_size
            d.take elements_to_copy.toNat ++ fresh.drop elements_to_copy.toNat
          | none => fresh
        (0, { data := some new_data,
              size := new_size,
              top := if s.top > new_size then new_size else s.top })

/-- One client operation against the device, with its environment
outcomes (byte counts, user-copy results, allocation success, fresh
buffer contents). -/
inductive Op where
  | read (count : Nat) (copy_ok : Bool)
  | write (count : Nat) (user : Option Int)
  | ioctl (cmd : Nat) (arg : Option Int) (alloc_ok : Bool) (garbage : Nat → Int)

/-- The stack state after one operation. -/
def applyOp (s : Stack) : Op → Stack
  | .read count ok => (stack_read s count ok).st
  | .write count user => (stack_write s count user).2
  | .ioctl cmd arg ok g => (stack_ioctl s cmd arg ok g).2

/-- The stack state after a sequence of operations from a given
state. -/
def runOps (s : Stack) (ops : List Op) : Stack :=
  ops.foldl applyOp s

/-- Module state seen by the USB callbacks: the long-lived stack plus
whether the character-device endpoint is currently registered. -/
structure Driver where
  store : Stack
  endpointPresent : Bool
deriving DecidableEq, Repr

/-- `usb_key_disconnect`: destroys the device, the class and the chrdev
registration.  It never references the `stack` pointer. -/
def usb_key_disconnect (d : Driver) : Driver :=
  { d with endpointPresent := false }

/-- `usb_key_probe`: registers the chrdev, creates the class and the
device node, failing early (with the environment-supplied error code
`err`) when any of the three registrations fails.  It never references
the `stack` pointer. -/
def usb_key_probe (d : Driver) (register_ok class_ok device_ok : Bool)
    (err : Int) : Int × Driver :=
  if register_ok = false then (err, d)
  else if class_ok = false then (err, d)
  else if device_ok = false then (err, d)
  else (0, { d with endpointPresent := true })

/-! ## Preservation of the stack invariant -/

theorem wf_stack_init : stack_init.WF := by
  constructor <;> simp [stack_init, Stack.buf]

/-- Introduction rule for `Stack.WF` on a literal state. -/
theorem Stack.WF_intro (data : Option (List Int)) (top size : Int)
    (h0 : 0 ≤ top) (h1 : top ≤ size)
    (h2 : (((data.getD []).length : Int)) = size) :
    (Stack.mk data top size).WF :=
  ⟨h0, h1, h2⟩

theorem wf_stack_read (s : Stack) (h : s.WF) (count : Nat) (ok : Bool) :
    (stack_read s count ok).st.WF := by
  obtain ⟨data, top, size⟩ := s
  obtain ⟨h0, h1, h2⟩ := h
  simp only [Stack.buf] at h2
  dsimp only at h0 h1 h2
  unfold stack_read
  dsimp only
  split_ifs <;>
    exact Stack.WF_intro _ _ _ (by omega) (by omega) h2

theorem wf_stack_write (s : Stack) (h : s.WF) (count : Nat)
    (user : Option Int) : (stack_write s count user).2.WF := by
  obtain ⟨data, top, size⟩ := s
  obtain ⟨h0, h1, h2⟩ := h
  simp only [Stack.buf] at h2
  dsimp only at h0 h1 h2
  cases user with
  | none =>
    unfold stack_write
    dsimp only
    split_ifs <;> exact Stack.WF_intro _ _ _ (by omega) (by omega) h2
  | some value =>
    unfold stack_write
    dsimp only
    split_ifs <;>
      first
        | exact Stack.WF_intro _ _ _ (by omega) (by omega) h2
        | exact Stack.WF_intro _ _ _ (by omega) (by omega)
            (by simpa [List.length_set] using h2)

theorem wf_stack_ioctl (s : Stack) (h : s.WF) (cmd : Nat)
    (arg : Option Int) (alloc_ok : Bool) (garbage : Nat → Int) :
    (stack_ioctl s cmd arg alloc_ok garbage).2.WF := by
  obtain ⟨data, top, size⟩ := s
  obtain ⟨h0, h1, h2⟩ := h
  simp only [Stack.buf] at h2
  dsimp only at h0 h1 h2
  cases arg with
  | none =>
    unfold stack_ioctl
    dsimp only
    split_ifs <;> exact Stack.WF_intro _ _ _ (by omega) (by omega) h2
  | some new_size =>
    cases data with
    | none =>
      unfold stack_ioctl
      dsimp only
      split_ifs <;>
        first
          | exact Stack.WF_intro _ _ _ (by omega) (by omega) h2
          | exact Stack.WF_intro _ _ _ (by omega) (by omega)
              (by
                simp only [Option.getD_some, List.length_map,
                  List.length_range]
                omega)
    | some d =>
      simp only [Option.getD_some] at h2
      unfold stack_ioctl
      dsimp only
      split_ifs <;>
        first
          | exact Stack.WF_intro _ _ _ (by omega) (by omega) h2
          | exact Stack.WF_intro _ _ _ (by omega) (by omega)
              (by
                simp only [Option.getD_some, List.length_append,
                  List.length_take, List.length_drop, List.length_map,
                  List.length_range]
                omega)

theorem wf_applyOp (s : Stack) (h : s.WF) (op : Op) : (applyOp s op).WF := by
  cases op with
  | read count ok => exact wf_stack_read s h count ok
  | write count user => exact wf_stack_write s h count user
  | ioctl cmd arg ok g => exact wf_stack_ioctl s h cmd arg ok g

theorem wf_runOps (s : Stack) (h : s.WF) (ops : List Op) :
    (runOps s ops).WF := by
  induction ops generalizing s with
  | nil => exact h
  | cons op ops ih => exact ih (applyOp s op) (wf_applyOp s h op)

/-! ## Claims -/

/-- C1: starting from the initial state (capacity 0, no elements),
after every sequence of read (pop) / write (push) / ioctl (resize)
operations the invariant `0 ≤ length ≤ capacity` holds; since this is
quantified over all operation sequences, it holds after every
intermediate operation of any interleaving as well. -/
theorem C1_invariant_holds (ops : List Op) :
    0 ≤ (runOps stack_init ops).top ∧
      (runOps stack_init ops).top ≤ (runOps stack_init ops).size := by
  have h := wf_runOps stack_init wf_stack_init ops
  exact ⟨h.1, h.2.1⟩

/-- Taking one element past a freshly written slot splits off exactly
that value. -/
theorem take_succ_set (l : List Int) (n : Nat) (v : Int) (h : n < l.length) :
    (l.set n v).take (n + 1) = l.take n ++ [v] := by
  rw [List.set_eq_take_cons_drop v h, List.take_append_eq_append_take]
  simp [List.take_take, List.length_take, Nat.le_of_lt h, Nat.min_eq_left]

/-- Writing at slot `n` does not change the first `n` slots. -/
theorem take_of_set (l : List Int) (n : Nat) (v : Int) (h : n < l.length) :
    (l.set n v).take n = l.take n := by
  rw [List.set_eq_take_cons_drop v h, List.take_append_eq_append_take]
  simp [List.take_take, List.length_take, Nat.le_of_lt h, Nat.min_eq_left]

/-- Reading back a freshly written slot yields the written value. -/
theorem getD_set_self (l : List Int) (n : Nat) (v : Int) (h : n < l.length) :
    (l.set n v).getD n 0 = v := by
  simp [List.getD, h]

/-- C2: popping (`stack_read` with a 4-byte count and a successful
user copy) an empty stack returns zero bytes — the empty sentinel,
not an error — and leaves the state unchanged; popping a non-empty
stack returns the top element `buf[top - 1]` (the slot the most recent
surviving push filled, i.e. LIFO order), decrements `top` by exactly
one, and leaves `size` and the whole buffer — in particular every
element below the old top — unchanged. -/
theorem C2_pop_behavior (s : Stack) :
    (s.top = 0 →
      stack_read s 4 true = { ret := 0, transferred := none, st := s }) ∧
    (0 < s.top →
      stack_read s 4 true =
        { ret := 4,
          transferred := some (s.buf.getD (s.top - 1).toNat 0),
          st := { s with top := s.top - 1 } }) := by
  constructor
  · intro htop
    unfold stack_read
    rw [if_neg (by norm_num), if_pos htop]
  · intro htop
    unfold stack_read
    rw [if_neg (by norm_num), if_neg (by omega), if_pos rfl]

/-- C2 witness: on the stack `[5, 7]` with two elements, pop returns
7 and shrinks the length to 1; on the same buffer with length 0, pop
returns the zero-byte sentinel and changes nothing. -/
theorem C2_pop_behavior_witness :
    stack_read ⟨some [5, 7], 0, 2⟩ 4 true =
      { ret := 0, transferred := none, st := ⟨some [5, 7], 0, 2⟩ } ∧
    stack_read ⟨some [5, 7], 2, 2⟩ 4 true =
      { ret := 4, transferred := some 7, st := ⟨some [5, 7], 1, 2⟩ } :=
  ⟨(C2_pop_behavior ⟨some [5, 7], 0, 2⟩).1 rfl,
   (C2_pop_behavior ⟨some [5, 7], 2, 2⟩).2 (by decide)⟩

/-- C3: pushing (`stack_write` with a 4-byte count and a successful
user copy) onto a stack whose length has reached its capacity —
including the never-resized capacity-0 state — fails with `-ERANGE`
(the Full error) and mutates nothing; pushing onto a stack with
`top < size` succeeds, stores the value in slot `top` (so the live
prefix grows by exactly the pushed value) and increments `top` by
one. -/
theorem C3_push_behavior (s : Stack) (h : s.WF) (v : Int) :
    (s.top = s.size → stack_write s 4 (some v) = (-ERANGE, s)) ∧
    (s.top < s.size →
      stack_write s 4 (some v) =
        (4, { s with data := some (s.buf.set s.top.toNat v),
                     top := s.top + 1 }) ∧
      (s.buf.set s.top.toNat v).take (s.top.toNat + 1) =
        s.buf.take s.top.toNat ++ [v]) := by
  obtain ⟨h0, h1, h2⟩ := h
  constructor
  · intro hfull
    unfold stack_write
    rw [if_neg (by norm_num)]
    dsimp only
    rw [if_pos (by omega)]
  · intro hroom
    refine ⟨?_, ?_⟩
    · unfold stack_write
      rw [if_neg (by norm_num)]
      dsimp only
      rw [if_neg (by omega)]
    · exact take_succ_set s.buf s.top.toNat v (by omega)

/-- C3 witness: pushing 9 onto the saturated one-slot stack `[1]`
fails with `-ERANGE` and no mutation; pushing 9 onto an empty
two-slot stack stores it in slot 0 and sets the length to 1. -/
theorem C3_push_behavior_witness :
    stack_write ⟨some [1], 1, 1⟩ 4 (some 9) = (-ERANGE, ⟨some [1], 1, 1⟩) ∧
    stack_write ⟨some [0, 0], 0, 2⟩ 4 (some 9) =
      (4, ⟨some [9, 0], 1, 2⟩) :=
  ⟨(C3_push_behavior ⟨some [1], 1, 1⟩ (by decide) 9).1 rfl,
   ((C3_push_behavior ⟨some [0, 0], 0, 2⟩ (by decide) 9).2 (by decide)).1⟩

/-- C4: a successful resize to `n > 0` returns 0, sets the capacity
to `n`, sets the length to `min(k, n)` where `k` was the number of
elements, allocates a buffer of exactly `n` slots, and keeps exactly
the bottom `min(k, n)` elements in their original order — elements
beyond the new capacity are silently discarded without error. -/
theorem C4_resize_success (s : Stack) (h : s.WF) (n : Int) (hn : 0 < n)
    (g : Nat → Int) :
    (stack_ioctl s IOCTL_SET_SIZE (some n) true g).1 = 0 ∧
      (stack_ioctl s IOCTL_SET_SIZE (some n) true g).2.size = n ∧
      (stack_ioctl s IOCTL_SET_SIZE (some n) true g).2.top = min s.top n ∧
      (((stack_ioctl s IOCTL_SET_SIZE (some n) true g).2.buf.length : Int))
          = n ∧
      (stack_ioctl s IOCTL_SET_SIZE (some n) true
            g).2.buf.take (min s.top n).toNat
        = s.buf.take (min s.top n).toNat := by
  obtain ⟨data, top, size⟩ := s
  obtain ⟨h0, h1, h2⟩ := h
  simp only [Stack.buf] at h2
  dsimp only at h0 h1 h2
  unfold stack_ioctl
  rw [if_neg (by norm_num)]
  dsimp only
  rw [if_neg (by omega), if_neg (by simp)]
  cases data with
  | none =>
    simp only [Option.getD_none, List.length_nil] at h2
    have htop : top = 0 := by omega
    subst htop
    refine ⟨rfl, rfl, ?_, ?_, ?_⟩
    · dsimp only
      split_ifs <;> omega
    · simp only [Stack.buf, Option.getD_some, List.length_map,
        List.length_range]
      omega
    · have hmin : min (0 : Int) n = 0 := by omega
      simp [Stack.buf, hmin]
  | some d =>
    simp only [Option.getD_some] at h2
    have hcopy : (if top < n then top else n) = min top n := by
      split_ifs <;> omega
    refine ⟨rfl, rfl, ?_, ?_, ?_⟩
    · dsimp only
      split_ifs <;> omega
    · simp only [Stack.buf, Option.getD_some, hcopy, List.length_append,
        List.length_take, List.length_drop, List.length_map,
        List.length_range]
      omega
    · simp only [Stack.buf, Option.getD_some, hcopy]
      have hlen : (d.take (min top n).toNat).length = (min top n).toNat := by
        simp only [List.length_take]
        omega
      calc (d.take (min top n).toNat ++
              (((List.range n.toNat).map g)).drop (min top n).toNat).take
                (min top n).toNat
          = (d.take (min top n).toNat ++
              (((List.range n.toNat).map g)).drop (min top n).toNat).take
                (d.take (min top n).toNat).length := by rw [hlen]
        _ = d.take (min top n).toNat := List.take_left _ _

/-- C4 witness: the full stack `[1, 2, 3]` of capacity 3 resized to 2
keeps the bottom two elements `[1, 2]` in order, with capacity,
length and buffer size all 2 and a zero return. -/
theorem C4_resize_success_witness :
    (stack_ioctl ⟨some [1, 2, 3], 3, 3⟩ IOCTL_SET_SIZE (some 2) true
          (fun _ => 0)).1 = 0 ∧
      (stack_ioctl ⟨some [1, 2, 3], 3, 3⟩ IOCTL_SET_SIZE (some 2) true
          (fun _ => 0)).2.size = 2 ∧
      (stack_ioctl ⟨some [1, 2, 3], 3, 3⟩ IOCTL_SET_SIZE (some 2) true
          (fun _ => 0)).2.top = min (3 : Int) 2 ∧
      (((stack_ioctl ⟨some [1, 2, 3], 3, 3⟩ IOCTL_SET_SIZE (some 2) true
          (fun _ => 0)).2.buf.length : Int)) = 2 ∧
      (stack_ioctl ⟨some [1, 2, 3], 3, 3⟩ IOCTL_SET_SIZE (some 2) true
            (fun _ => 0)).2.buf.take (min (3 : Int) 2).toNat
        = (⟨some [1, 2, 3], 3, 3⟩ : Stack).buf.take (min (3 : Int) 2).toNat :=
  C4_resize_success ⟨some [1, 2, 3], 3, 3⟩ (by decide) 2 (by decide)
    (fun _ => 0)

/-- C5: a failed resize is all-or-nothing.  `stack_ioctl` with the
set-size command and a non-positive requested size always fails with
`-EINVAL`, and with a positive requested size but a failed allocation
always fails with `-ENOMEM`; in both cases the state — capacity,
buffer and length — is returned exactly as it was. -/
theorem C5_resize_failure_atomic (s : Stack) (n : Int) (alloc_ok : Bool)
    (g : Nat → Int) :
    (n ≤ 0 →
      stack_ioctl s IOCTL_SET_SIZE (some n) alloc_ok g = (-EINVAL, s)) ∧
    (0 < n → alloc_ok = false →
      stack_ioctl s IOCTL_SET_SIZE (some n) alloc_ok g = (-ENOMEM, s)) := by
  constructor
  · intro hn
    unfold stack_ioctl
    rw [if_neg (by norm_num)]
    exact if_pos hn
  · intro hn hal
    unfold stack_ioctl
    rw [if_neg (by norm_num)]
    dsimp only
    rw [if_neg (by omega), if_pos (by simp [hal])]

/-- C5 witness: on the stack `[3]` of capacity 1 and length 1,
resizing to 0 fails with `-EINVAL` and resizing to 5 under a failed
allocation fails with `-ENOMEM`, both leaving the state intact. -/
theorem C5_resize_failure_atomic_witness :
    stack_ioctl ⟨some [3], 1, 1⟩ IOCTL_SET_SIZE (some 0) true (fun _ => 0) =
      (-EINVAL, ⟨some [3], 1, 1⟩) ∧
    stack_ioctl ⟨some [3], 1, 1⟩ IOCTL_SET_SIZE (some 5) false (fun _ => 0) =
      (-ENOMEM, ⟨some [3], 1, 1⟩) :=
  ⟨(C5_resize_failure_atomic ⟨some [3], 1, 1⟩ 0 true (fun _ => 0)).1
      (by decide),
   (C5_resize_failure_atomic ⟨some [3], 1, 1⟩ 5 false (fun _ => 0)).2
      (by decide) rfl⟩

/-- C6 counterexample: the push/pop round-trip is not the identity on
the raw stack state.  On the stack `[5, ·]` with one element, pushing
9 and popping it leaves the backing buffer as `[5, 9]` — `stack_read`
removes the element only logically and never zeroes the slot — so the
post-pair state differs from the pre-push state even though every
observable component (capacity, length, live elements) is restored. -/
theorem C6_roundtrip_not_raw_identity :
    (stack_read (stack_write ⟨some [5, 0], 1, 2⟩ 4 (some 9)).2 4
          true).st.buf
        ≠ (⟨some [5, 0], 1, 2⟩ : Stack).buf ∧
      (stack_read (stack_write ⟨some [5, 0], 1, 2⟩ 4 (some 9)).2 4 true).st
        ≠ ⟨some [5, 0], 1, 2⟩ := by
  decide

/-- C6 (amended): on any well-formed stack with room (`top < size`),
a push of `v` immediately followed by a pop succeeds (4 bytes each
way), the pop returns exactly `v`, and afterwards the capacity, the
length and the element sequence (the first `top` slots of the buffer,
the spec's `elements`) all equal their pre-push values: the push/pop
pair is the identity on the observable stack, though not on the raw
backing buffer, whose slot above the restored length retains `v`. -/
theorem C6_push_pop_roundtrip (s : Stack) (h : s.WF) (v : Int)
    (hroom : s.top < s.size) :
    (stack_write s 4 (some v)).1 = 4 ∧
      (stack_read (stack_write s 4 (some v)).2 4 true).ret = 4 ∧
      (stack_read (stack_write s 4 (some v)).2 4 true).transferred
          = some v ∧
      (stack_read (stack_write s 4 (some v)).2 4 true).st.size = s.size ∧
      (stack_read (stack_write s 4 (some v)).2 4 true).st.top = s.top ∧
      (stack_read (stack_write s 4 (some v)).2 4
            true).st.buf.take s.top.toNat
        = s.buf.take s.top.toNat := by
  obtain ⟨h0, h1, h2⟩ := h
  have hlen : s.top.toNat < s.buf.length := by omega
  have hw : stack_write s 4 (some v) =
      (4, { s with data := some (s.buf.set s.top.toNat v),
                   top := s.top + 1 }) := by
    unfold stack_write
    rw [if_neg (by norm_num)]
    dsimp only
    rw [if_neg (by omega)]
  have hsub : s.top + 1 - 1 = s.top := by omega
  have hr : stack_read
      { s with data := some (s.buf.set s.top.toNat v), top := s.top + 1 }
      4 true =
      { ret := 4, transferred := some v,
        st := { s with data := some (s.buf.set s.top.toNat v),
                       top := s.top } } := by
    unfold stack_read
    rw [if_neg (by norm_num)]
    dsimp only
    rw [if_neg (by omega)]
    simp only [Stack.buf, Option.getD_some, hsub]
    rw [if_pos trivial,
      getD_set_self (s.data.getD []) s.top.toNat v
        (by simpa [Stack.buf] using hlen)]
  rw [hw]
  dsimp only
  rw [hr]
  refine ⟨rfl, rfl, rfl, rfl, rfl, ?_⟩
  simp only [Stack.buf, Option.getD_some]
  exact take_of_set s.buf s.top.toNat v hlen

/-- C6 witness: pushing 9 onto the stack `[5, ·]` holding one element
and popping returns 9 with capacity 2, length 1 and live prefix `[5]`
restored. -/
theorem C6_push_pop_roundtrip_witness :
    (stack_write ⟨some [5, 0], 1, 2⟩ 4 (some 9)).1 = 4 ∧
      (stack_read (stack_write ⟨some [5, 0], 1, 2⟩ 4 (some 9)).2 4
          true).ret = 4 ∧
      (stack_read (stack_write ⟨some [5, 0], 1, 2⟩ 4 (some 9)).2 4
          true).transferred = some 9 ∧
      (stack_read (stack_write ⟨some [5, 0], 1, 2⟩ 4 (some 9)).2 4
          true).st.size = 2 ∧
      (stack_read (stack_write ⟨some [5, 0], 1, 2⟩ 4 (some 9)).2 4
          true).st.top = 1 ∧
      (stack_read (stack_write ⟨some [5, 0], 1, 2⟩ 4 (some 9)).2 4
            true).st.buf.take ((1 : Int)).toNat
        = (⟨some [5, 0], 1, 2⟩ : Stack).buf.take ((1 : Int)).toNat :=
  C6_push_pop_roundtrip ⟨some [5, 0], 1, 2⟩ (by decide) 9 (by decide)

/-- C8: a read or write whose byte count is not exactly 4 (the size
of one stack element) fails with `-EINVAL` before touching the stack,
and an ioctl whose command is not the single recognized set-size
command fails with `-ENOTTY` before touching the stack; the state is
returned unchanged in all three cases. -/
theorem C8_invalid_requests (s : Stack) (count : Nat) (ok : Bool)
    (user : Option Int) (cmd : Nat) (arg : Option Int) (alloc_ok : Bool)
    (g : Nat → Int) :
    (count ≠ 4 →
      stack_read s count ok =
          { ret := -EINVAL, transferred := none, st := s } ∧
        stack_write s count user = (-EINVAL, s)) ∧
    (cmd ≠ IOCTL_SET_SIZE →
      stack_ioctl s cmd arg alloc_ok g = (-ENOTTY, s)) := by
  constructor
  · intro hc
    constructor
    · unfold stack_read
      exact if_pos hc
    · unfold stack_write
      exact if_pos hc
  · intro hcmd
    unfold stack_ioctl
    exact if_pos hcmd

/-- C8 witness: a 3-byte read, a 3-byte write and an ioctl with
command 0 against the stack `[3]` all fail with the respective error
and leave the state unchanged. -/
theorem C8_invalid_requests_witness :
    stack_read ⟨some [3], 1, 1⟩ 3 true =
      { ret := -EINVAL, transferred := none, st := ⟨some [3], 1, 1⟩ } ∧
    stack_write ⟨some [3], 1, 1⟩ 3 (some 9) = (-EINVAL, ⟨some [3], 1, 1⟩) ∧
    stack_ioctl ⟨some [3], 1, 1⟩ 0 (some 2) true (fun _ => 0) =
      (-ENOTTY, ⟨some [3], 1, 1⟩) := by
  have h := C8_invalid_requests ⟨some [3], 1, 1⟩ 3 true (some 9) 0 (some 2)
    true (fun _ => 0)
  exact ⟨(h.1 (by decide)).1, (h.1 (by decide)).2, h.2 (by decide)⟩

/-- C10: a pop whose copy to the user buffer faults reports `-EFAULT`
to the caller even though the element was already removed: `top` was
decremented under the lock before `copy_to_user` ran, so the failed
read still mutates the state (the resulting state differs from the
initial one) and the popped value is lost. -/
theorem C10_pop_fault_loses_element (s : Stack) (h : 0 < s.top) :
    stack_read s 4 false =
        { ret := -EFAULT, transferred := none,
          st := { s with top := s.top - 1 } } ∧
      (stack_read s 4 false).st ≠ s := by
  have heq : stack_read s 4 false =
      { ret := -EFAULT, transferred := none,
        st := { s with top := s.top - 1 } } := by
    unfold stack_read
    rw [if_neg (by norm_num), if_neg (by omega), if_neg (by simp)]
  refine ⟨heq, ?_⟩
  rw [heq]
  intro hcontra
  have : s.top - 1 = s.top := congrArg Stack.top hcontra
  omega

/-- C10 witness: on the stack `[5, 7]` with two elements, a pop whose
user copy faults returns `-EFAULT` yet the length has dropped to 1 —
the value 7 is gone. -/
theorem C10_pop_fault_loses_element_witness :
    stack_read ⟨some [5, 7], 2, 2⟩ 4 false =
        { ret := -EFAULT, transferred := none, st := ⟨some [5, 7], 1, 2⟩ } ∧
      (stack_read ⟨some [5, 7], 2, 2⟩ 4 false).st ≠ ⟨some [5, 7], 2, 2⟩ :=
  C10_pop_fault_loses_element ⟨some [5, 7], 2, 2⟩ (by decide)

/-- C7: a detach (`usb_key_disconnect`) followed by an attach
(`usb_key_probe`, whatever the outcome of its three registration
steps) leaves the stack store exactly unchanged — same capacity, same
elements, same length — and the detach alone also leaves it
unchanged: neither callback reads or writes any stack field. -/
theorem C7_detach_attach_preserves_store (d : Driver)
    (register_ok class_ok device_ok : Bool) (err : Int) :
    (usb_key_probe (usb_key_disconnect d) register_ok class_ok
        device_ok err).2.store = d.store ∧
      (usb_key_disconnect d).store = d.store := by
  unfold usb_key_probe usb_key_disconnect
  split_ifs <;> exact ⟨rfl, rfl⟩

/-!
## Concurrent pushes under the mutex

The guard in the source is `mutex_lock(&stack->lock)` /
`mutex_unlock(&stack->lock)` around the full critical section of
`stack_write`: the capacity check, the store `data[top] = value` and
the increment `top++`.  To verify the concurrency property we give the
critical section a small-step semantics: each pushing thread runs
through the program counters below, each memory access is a separate
step, a step of a blocked thread (one waiting in `mutex_lock`) is a
no-op, and an arbitrary schedule interleaves the threads.  The `writes`
field records the slot index of every `data[]` store, in order, so
that "no two pushes write the same slot" is directly expressible. -/

/-- Program counter of a thread running the critical section of
`stack_write`: before `mutex_lock`; holding the lock about to test
`top >= size`; about to store `data[top] = value`; about to increment
`top`; about to `mutex_unlock` and return `res`; returned. -/
inductive PushPC where
  | ready
  | checking
  | writing
  | bumping
  | unlocking (res : Int)
  | done (res : Int)
deriving DecidableEq, Repr

/-- One pushing thread: the value it pushes and its program
counter. -/
structure Thread where
  v : Int
  pc : PushPC
deriving DecidableEq, Repr

/-- Shared configuration: the stack, the mutex owner (`none` =
unlocked), the threads, and the trace of written slot indices. -/
structure Conc where
  stk : Stack
  lockOwner : Option Nat
  threads : List Thread
  writes : List Nat
deriving DecidableEq, Repr

/-- `t.pc` is outside the critical section. -/
def isIdle : PushPC → Bool
  | .ready => true
  | .done _ => true
  | _ => false

/-- `t.pc` is a terminal state. -/
def isDone : PushPC → Bool
  | .done _ => true
  | _ => false

/-- The thread has already executed its `top++` increment (it is past
the bump with a success result). -/
def okBumped : Thread → Bool
  | ⟨_, .unlocking r⟩ => r = 4
  | ⟨_, .done r⟩ => r = 4
  | _ => false

/-- The thread has already executed its `data[top] = value` store. -/
def hasWritten : Thread → Bool
  | ⟨_, .bumping⟩ => true
  | t => okBumped t

/-- One scheduler step: thread `i` executes its next micro-step of
`stack_write`'s critical section.  `mutex_lock` succeeds only when the
lock is free; every later micro-step requires holding the lock (which
the semantics guarantees for reachable states); a blocked or finished
thread leaves the configuration unchanged. -/
def concStep (c : Conc) (i : Nat) : Conc :=
  match c.threads[i]? with
  | none => c
  | some t =>
    match t.pc with
    | .ready =>
      if c.lockOwner = none then
        { c with lockOwner := some i,
                 threads := c.threads.set i { t with pc := .checking } }
      else c
    | .checking =>
      if c.lockOwner = some i then
        if c.stk.top ≥ c.stk.size then
          { c with threads :=
              c.threads.set i { t with pc := .unlocking (-ERANGE) } }
        else
          { c with threads := c.threads.set i { t with pc := .writing } }
      else c
    | .writing =>
      if c.lockOwner = some i then
        { c with
            stk := { c.stk with
              data := some ((c.stk.data.getD []).set c.stk.top.toNat t.v) },
            writes := c.writes ++ [c.stk.top.toNat],
            threads := c.threads.set i { t with pc := .bumping } }
      else c
    | .bumping =>
      if c.lockOwner = some i then
        { c with stk := { c.stk with top := c.stk.top + 1 },
                 threads := c.threads.set i { t with pc := .unlocking 4 } }
      else c
    | .unlocking r =>
      if c.lockOwner = some i then
        { c with lockOwner := none,
                 threads := c.threads.set i { t with pc := .done r } }
      else c
    | .done _ => c

/-- Run a schedule (an arbitrary interleaving of thread indices). -/
def concRun (c : Conc) (sched : List Nat) : Conc :=
  sched.foldl concStep c

/-- Initial configuration for the concurrency property: a stack of
capacity `size` with no elements and buffer `d0`, the mutex free, one
ready thread per value in `vs`, and an empty write trace. -/
def initConc (size : Int) (vs : List Int) (d0 : List Int) : Conc :=
  { stk := { data := some d0, top := 0, size := size },
    lockOwner := none,
    threads := vs.map (fun v => { v := v, pc := .ready }),
    writes := [] }

/-- Updating one slot of a list changes a `countP` by the
contributions of the old and new elements. -/
theorem countP_set_add {α : Type} (p : α → Bool) (l : List α) (i : Nat)
    (x t : α) (h : l[i]? = some t) :
    (l.set i x).countP p + (if p t then 1 else 0)
      = l.countP p + (if p x then 1 else 0) := by
  induction l generalizing i with
  | nil => simp at h
  | cons y ys ih =>
    cases i with
    | zero =>
      simp only [List.getElem?_cons_zero, Option.some.injEq] at h
      subst h
      simp only [List.set_cons_zero, List.countP_cons]
      omega
    | succ n =>
      simp only [List.getElem?_cons_succ] at h
      simp only [List.set_cons_succ, List.countP_cons]
      have := ih n h
      omega

/-- `countP` agrees for predicates that agree on every element. -/
theorem countP_eq_of_agree {α : Type} (p q : α → Bool) (l : List α)
    (h : ∀ a ∈ l, p a = q a) : l.countP p = l.countP q := by
  induction l with
  | nil => rfl
  | cons x xs ih =>
    rw [List.countP_cons, List.countP_cons, h x (by simp),
      ih (fun a ha => h a (by simp [ha]))]

/-- A thread outside the critical section has done its store exactly
when it has done its increment. -/
theorem hasWritten_eq_okBumped_of_idle (t : Thread)
    (h : isIdle t.pc = true) : hasWritten t = okBumped t := by
  obtain ⟨v, pc⟩ := t
  cases pc with
  | bumping => simp [isIdle] at h
  | ready => rfl
  | checking => rfl
  | writing => rfl
  | unlocking r => rfl
  | done r => rfl

/-- Inductive invariant of the interleaved semantics: the stack's
capacity stays `N`, its length counts exactly the threads past their
increment, the write trace is `0, 1, …` up to the number of stores
performed, every finished or unlocking thread succeeded with 4 bytes,
and the mutex discipline holds — when the lock is free every thread
is outside the critical section, and when thread `i` holds it every
other thread is outside. -/
structure Inv (N : Nat) (c : Conc) : Prop where
  threads_len : c.threads.length = N
  size_eq : c.stk.size = (N : Int)
  results_ok : ∀ t ∈ c.threads, ∀ r : Int,
    (t.pc = .unlocking r ∨ t.pc = .done r) → r = 4
  top_eq : c.stk.top = (c.threads.countP okBumped : Int)
  writes_eq : c.writes = List.range (c.threads.countP hasWritten)
  lock_free : c.lockOwner = none → ∀ t ∈ c.threads, isIdle t.pc = true
  lock_held : ∀ i, c.lockOwner = some i →
    ∃ t, c.threads[i]? = some t ∧ isIdle t.pc = false ∧
      ∀ j, j ≠ i → ∀ u, c.threads[j]? = some u → isIdle u.pc = true

/-- The initial configuration satisfies the invariant. -/
theorem inv_init (N : Nat) (vs : List Int) (hlen : vs.length = N)
    (d0 : List Int) : Inv N (initConc (N : Int) vs d0) := by
  refine ⟨?_, rfl, ?_, ?_, ?_, ?_, ?_⟩
  · simp [initConc, hlen]
  · intro t ht r hr
    simp only [initConc, List.mem_map] at ht
    obtain ⟨v, hv, ht⟩ := ht
    subst ht
    rcases hr with h | h <;> cases h
  · have hz : (initConc (N : Int) vs d0).threads.countP okBumped = 0 := by
      refine List.countP_eq_zero.mpr ?_
      intro a ha
      simp only [initConc, List.mem_map] at ha
      obtain ⟨v, hv, ha⟩ := ha
      subst ha
      simp [okBumped]
    rw [hz]
    rfl
  · have hz : (initConc (N : Int) vs d0).threads.countP hasWritten = 0 := by
      refine List.countP_eq_zero.mpr ?_
      intro a ha
      simp only [initConc, List.mem_map] at ha
      obtain ⟨v, hv, ha⟩ := ha
      subst ha
      simp [hasWritten, okBumped]
    rw [hz]
    rfl
  · intro _ t ht
    simp only [initConc, List.mem_map] at ht
    obtain ⟨v, hv, ht⟩ := ht
    subst ht
    rfl
  · intro i hk
    exact absurd hk (by simp [initConc])

/-- Every scheduler step preserves the invariant, whichever thread is
scheduled and whether or not it is blocked. -/
theorem inv_step (N : Nat) (c : Conc) (hc : Inv N c) (i : Nat) :
    Inv N (concStep c i) := by
  obtain ⟨hlen, hsize, hres, htop, hwr, hfree, hheld⟩ := hc
  unfold concStep
  cases hti : c.threads[i]? with
  | none => exact ⟨hlen, hsize, hres, htop, hwr, hfree, hheld⟩
  | some t =>
    obtain ⟨tv, tpc⟩ := t
    have hmem : (⟨tv, tpc⟩ : Thread) ∈ c.threads := List.getElem?_mem hti
    have hilt : i < c.threads.length := by
      by_contra hcon
      rw [List.getElem?_eq_none_iff.mpr (by omega)] at hti
      cases hti
    cases tpc with
    | ready =>
      dsimp only
      split_ifs with hg
      · have hcntb := countP_set_add okBumped c.threads i
          ⟨tv, .checking⟩ ⟨tv, .ready⟩ hti
        have hcntw := countP_set_add hasWritten c.threads i
          ⟨tv, .checking⟩ ⟨tv, .ready⟩ hti
        simp only [okBumped, hasWritten, if_false] at hcntb hcntw
        refine ⟨?_, hsize, ?_, ?_, ?_, ?_, ?_⟩
        · simpa [List.length_set] using hlen
        · intro u hu r hr
          rcases List.mem_or_eq_of_mem_set hu with hu' | rfl
          · exact hres u hu' r hr
          · rcases hr with h | h <;> cases h
        · dsimp only
          omega
        · dsimp only
          rw [hwr]
          congr 1
          omega
        · intro h
          simp at h
        · intro k hk
          simp only [Option.some.injEq] at hk
          subst hk
          refine ⟨⟨tv, .checking⟩, ?_, rfl, ?_⟩
          · exact List.getElem?_set_self hilt
          · intro j hj u hu
            rw [List.getElem?_set_ne (Ne.symm hj)] at hu
            exact hfree hg u (List.getElem?_mem hu)
      · exact ⟨hlen, hsize, hres, htop, hwr, hfree, hheld⟩
    | checking =>
      dsimp only
      split_ifs with hg hfull
      · exfalso
        have hlt : c.threads.countP okBumped < c.threads.length := by
          rcases Nat.lt_or_ge (c.threads.countP okBumped)
              c.threads.length with h | h
          · exact h
          · exfalso
            have heq : c.threads.countP okBumped = c.threads.length :=
              Nat.le_antisymm (List.countP_le_length _) h
            have := List.countP_eq_length.mp heq _ hmem
            simp [okBumped] at this
        omega
      · have hcntb := countP_set_add okBumped c.threads i
          ⟨tv, .writing⟩ ⟨tv, .checking⟩ hti
        have hcntw := countP_set_add hasWritten c.threads i
          ⟨tv, .writing⟩ ⟨tv, .checking⟩ hti
        simp only [okBumped, hasWritten, if_false] at hcntb hcntw
        refine ⟨?_, hsize, ?_, ?_, ?_, ?_, ?_⟩
        · simpa [List.length_set] using hlen
        · intro u hu r hr
          rcases List.mem_or_eq_of_mem_set hu with hu' | rfl
          · exact hres u hu' r hr
          · rcases hr with h | h <;> cases h
        · dsimp only
          omega
        · dsimp only
          rw [hwr]
          congr 1
          omega
        · intro h
          rw [hg] at h
          cases h
        · intro k hk
          dsimp only at hk
          rw [hg] at hk
          simp only [Option.some.injEq] at hk
          subst hk
          refine ⟨⟨tv, .writing⟩, ?_, rfl, ?_⟩
          · exact List.getElem?_set_self hilt
          · intro j hj u hu
            rw [List.getElem?_set_ne (Ne.symm hj)] at hu
            obtain ⟨t0, ht0, _, hothers⟩ := hheld i hg
            exact hothers j hj u hu
      · exact ⟨hlen, hsize, hres, htop, hwr, hfree, hheld⟩
    | writing =>
      dsimp only
      split_ifs with hg
      · obtain ⟨t0, ht0, _, hothers⟩ := hheld i hg
        have hagree : ∀ u ∈ c.threads, hasWritten u = okBumped u := by
          intro u hu
          obtain ⟨j, hj⟩ := List.getElem?_of_mem hu
          by_cases hji : j = i
          · subst hji
            rw [hti] at hj
            injection hj with hj
            subst hj
            rfl
          · exact hasWritten_eq_okBumped_of_idle u (hothers j hji u hj)
        have hw_cnt : c.threads.countP hasWritten
            = c.threads.countP okBumped :=
          countP_eq_of_agree _ _ _ hagree
        have hcntb := countP_set_add okBumped c.threads i
          ⟨tv, .bumping⟩ ⟨tv, .writing⟩ hti
        have hcntw := countP_set_add hasWritten c.threads i
          ⟨tv, .bumping⟩ ⟨tv, .writing⟩ hti
        simp [okBumped, hasWritten] at hcntb hcntw
        refine ⟨?_, hsize, ?_, ?_, ?_, ?_, ?_⟩
        · simpa [List.length_set] using hlen
        · intro u hu r hr
          rcases List.mem_or_eq_of_mem_set hu with hu' | rfl
          · exact hres u hu' r hr
          · rcases hr with h | h <;> cases h
        · dsimp only
          omega
        · dsimp only
          have hcnt' : (c.threads.set i ⟨tv, .bumping⟩).countP hasWritten
              = c.threads.countP hasWritten + 1 := by omega
          have htopnat : c.stk.top.toNat
              = c.threads.countP hasWritten := by omega
          rw [hwr, hcnt', List.range_succ, htopnat]
        · intro h
          rw [hg] at h
          cases h
        · intro k hk
          dsimp only at hk
          rw [hg] at hk
          simp only [Option.some.injEq] at hk
          subst hk
          refine ⟨⟨tv, .bumping⟩, ?_, rfl, ?_⟩
          · exact List.getElem?_set_self hilt
          · intro j hj u hu
            rw [List.getElem?_set_ne (Ne.symm hj)] at hu
            exact hothers j hj u hu
      · exact ⟨hlen, hsize, hres, htop, hwr, hfree, hheld⟩
    | bumping =>
      dsimp only
      split_ifs with hg
      · obtain ⟨t0, ht0, _, hothers⟩ := hheld i hg
        have hcntb := countP_set_add okBumped c.threads i
          ⟨tv, .unlocking 4⟩ ⟨tv, .bumping⟩ hti
        have hcntw := countP_set_add hasWritten c.threads i
          ⟨tv, .unlocking 4⟩ ⟨tv, .bumping⟩ hti
        simp [okBumped, hasWritten] at hcntb hcntw
        refine ⟨?_, hsize, ?_, ?_, ?_, ?_, ?_⟩
        · simpa [List.length_set] using hlen
        · intro u hu r hr
          rcases List.mem_or_eq_of_mem_set hu with hu' | rfl
          · exact hres u hu' r hr
          · rcases hr with h | h
            · injection h with h
              omega
            · cases h
        · dsimp only
          omega
        · dsimp only
          rw [hwr]
          congr 1
          omega
        · intro h
          rw [hg] at h
          cases h
        · intro k hk
          dsimp only at hk
          rw [hg] at hk
          simp only [Option.some.injEq] at hk
          subst hk
          refine ⟨⟨tv, .unlocking 4⟩, ?_, rfl, ?_⟩
          · exact List.getElem?_set_self hilt
          · intro j hj u hu
            rw [List.getElem?_set_ne (Ne.symm hj)] at hu
            exact hothers j hj u hu
      · exact ⟨hlen, hsize, hres, htop, hwr, hfree, hheld⟩
    | unlocking r =>
      dsimp only
      split_ifs with hg
      · obtain ⟨t0, ht0, _, hothers⟩ := hheld i hg
        have hr4 : r = 4 := hres ⟨tv, .unlocking r⟩ hmem r (Or.inl rfl)
        subst hr4
        have hcntb := countP_set_add okBumped c.threads i
          ⟨tv, .done 4⟩ ⟨tv, .unlocking 4⟩ hti
        have hcntw := countP_set_add hasWritten c.threads i
          ⟨tv, .done 4⟩ ⟨tv, .unlocking 4⟩ hti
        simp [okBumped, hasWritten] at hcntb hcntw
        refine ⟨?_, hsize, ?_, ?_, ?_, ?_, ?_⟩
        · simpa [List.length_set] using hlen
        · intro u hu r' hr'
          rcases List.mem_or_eq_of_mem_set hu with hu' | rfl
          · exact hres u hu' r' hr'
          · rcases hr' with h | h
            · cases h
            · injection h with h
              omega
        · dsimp only
          omega
        · dsimp only
          rw [hwr]
          congr 1
          omega
        · intro _ u hu
          obtain ⟨j, hj⟩ := List.getElem?_of_mem hu
          by_cases hji : j = i
          · subst hji
            rw [List.getElem?_set_self hilt] at hj
            injection hj with hj
            subst hj
            rfl
          · rw [List.getElem?_set_ne (fun h => hji h.symm)] at hj
            exact hothers j hji u hj
        · intro k hk
          cases hk
      · exact ⟨hlen, hsize, hres, htop, hwr, hfree, hheld⟩
    | done r => exact ⟨hlen, hsize, hres, htop, hwr, hfree, hheld⟩

/-- The invariant holds after any schedule. -/
theorem inv_run (N : Nat) (c : Conc) (hc : Inv N c) (sched : List Nat) :
    Inv N (concRun c sched) := by
  induction sched generalizing c with
  | nil => exact hc
  | cons i rest ih => exact ih (concStep c i) (inv_step N c hc i)

/-- C9: for every `N`, when `N` pushes are issued concurrently by
independent callers against a stack of capacity `N` — modelled by `N`
threads each running the micro-steps of `stack_write`'s mutex-guarded
critical section under an arbitrary interleaving `sched` — then in any
execution in which every thread has finished, each push succeeded
exactly once (every thread ends with result 4), the final length is
exactly `N`, and the trace of `data[]` stores is `0, 1, …, N-1`: no
two pushes wrote the same slot and no thread ever observed a partial
update (the capacity check never spuriously failed). -/
theorem C9_concurrent_pushes (N : Nat) (vs : List Int) (hvs : vs.length = N)
    (d0 : List Int) (sched : List Nat)
    (hterm : ∀ t ∈ (concRun (initConc (N : Int) vs d0) sched).threads,
      isDone t.pc = true) :
    (∀ t ∈ (concRun (initConc (N : Int) vs d0) sched).threads,
        t.pc = PushPC.done 4) ∧
      (concRun (initConc (N : Int) vs d0) sched).stk.top = (N : Int) ∧
      (concRun (initConc (N : Int) vs d0) sched).writes = List.range N ∧
      (concRun (initConc (N : Int) vs d0) sched).writes.Nodup := by
  obtain ⟨hlen, hsize, hres, htop, hwr, hfree, hheld⟩ :=
    inv_run N (initConc (N : Int) vs d0) (inv_init N vs hvs d0) sched
  have hdone4 : ∀ t ∈ (concRun (initConc (N : Int) vs d0) sched).threads,
      t.pc = PushPC.done 4 := by
    intro t ht
    obtain ⟨v, pc⟩ := t
    have hd := hterm _ ht
    cases pc with
    | done r =>
      have hr := hres ⟨v, .done r⟩ ht r (Or.inr rfl)
      subst hr
      rfl
    | ready => simp [isDone] at hd
    | checking => simp [isDone] at hd
    | writing => simp [isDone] at hd
    | bumping => simp [isDone] at hd
    | unlocking r => simp [isDone] at hd
  have hcntb : (concRun (initConc (N : Int) vs d0)
      sched).threads.countP okBumped = N := by
    refine (List.countP_eq_length.mpr ?_).trans hlen
    intro t ht
    have := hdone4 t ht
    obtain ⟨v, pc⟩ := t
    dsimp only at this
    subst this
    rfl
  have hcntw : (concRun (initConc (N : Int) vs d0)
      sched).threads.countP hasWritten = N := by
    refine (List.countP_eq_length.mpr ?_).trans hlen
    intro t ht
    have := hdone4 t ht
    obtain ⟨v, pc⟩ := t
    dsimp only at this
    subst this
    rfl
  refine ⟨hdone4, ?_, ?_, ?_⟩
  · rw [htop, hcntb]
  · rw [hwr, hcntw]
  · rw [hwr]
    exact List.nodup_range _

/-- C9 witness: two threads pushing 10 and 20 against a stack of
capacity 2, interleaved so that thread 1 repeatedly attempts the lock
while thread 0 holds it: both finish, the final length is 2 and the
two stores hit the distinct slots 0 and 1. -/
theorem C9_concurrent_pushes_witness :
    (concRun (initConc ((2 : Nat) : Int) [10, 20] [0, 0])
        [0, 1, 0, 1, 0, 1, 0, 1, 0, 1, 1, 1, 1, 1]).stk.top
          = ((2 : Nat) : Int) ∧
      (concRun (initConc ((2 : Nat) : Int) [10, 20] [0, 0])
          [0, 1, 0, 1, 0, 1, 0, 1, 0, 1, 1, 1, 1, 1]).writes
            = List.range 2 ∧
      (concRun (initConc ((2 : Nat) : Int) [10, 20] [0, 0])
          [0, 1, 0, 1, 0, 1, 0, 1, 0, 1, 1, 1, 1, 1]).writes.Nodup :=
  (C9_concurrent_pushes 2 [10, 20] (by decide) [0, 0]
      [0, 1, 0, 1, 0, 1, 0, 1, 0, 1, 1, 1, 1, 1] (by decide)).2

end IntStack
